import Mathlib

/-!
Verification of the cooperative work-stealing thread pool in
`src/runtime/thread_pool_common.h`.

The definitions below are a shallow embedding of the runtime code.  Pure
functions of the C source become Lean functions; the stateful pieces (the
semaphore value, the semaphore table consulted by `make_runnable`, the job
stack scanned by the dispatch loop) become explicit state threaded through
the corresponding Lean functions.  C `int` values are modelled as `Int`
(the quantities involved -- iteration ranges, thread counts, semaphore
counts -- never approach the 32-bit boundary in any claim considered
here, so wrap-around is not modelled).
-/

namespace ThreadPool

/-! ### Constants and thread-count clamping (source lines 44-53) -/

/-- Source: `#define MAX_THREADS 256`. -/
def MAX_THREADS : Int := 256

/-- Source: `clamp_num_threads` (lines 46-53). -/
def clamp_num_threads (threads : Int) : Int :=
  if threads > MAX_THREADS then MAX_THREADS
  else if threads < 1 then 1
  else threads

/-! ### Semaphore (source lines 488-523)

The default semaphore is a single signed integer.  `try_acquire`
decrements the value by `n`; on a negative result it restores the value
and reports failure.  Sequentially the net effect is the pair returned
below. -/

/-- Source: `halide_default_semaphore_try_acquire` (lines 511-523).
The first component is the returned `bool`, the second the semaphore
value after the call (restored on failure). -/
def halide_default_semaphore_try_acquire (v n : Int) : Bool × Int :=
  let new_val := v - n
  if new_val < 0 then (false, v) else (true, new_val)

/-- Source: `halide_default_semaphore_release` (lines 499-509); returns
the post-increment value. -/
def halide_default_semaphore_release (v n : Int) : Int := v + n

/-! ### `halide_set_num_threads` and the lazy initialization of
`desired_threads_working` (source lines 256-277 and 445-460).

Both writers of `work_queue.desired_threads_working` are modelled as
functions of the current field value, the environment-derived default
(`default_desired_num_threads`), and -- for `halide_set_num_threads` --
the argument `n`. -/

/-- Source: `halide_set_num_threads` (lines 445-460).  Returns the pair
(previous value, value stored into `desired_threads_working`). -/
def halide_set_num_threads (desired_threads_working env_default n : Int) :
    Int × Int :=
  let n2 := if n = 0 then env_default else n
  (desired_threads_working, clamp_num_threads n2)

/-- Source: the lazy-initialization write of `desired_threads_working`
inside `enqueue_work_already_locked` (lines 267-270):
`if (!work_queue.desired_threads_working) ... = default_desired_num_threads();`
followed by `... = clamp_num_threads(...)`. -/
def enqueue_init_desired_threads (desired_threads_working env_default : Int) :
    Int :=
  clamp_num_threads
    (if desired_threads_working = 0 then env_default else desired_threads_working)

/-! ### Claims C3 and C10 -/

/-- **C3.** For every semaphore value `v` and every `n`,
`halide_default_semaphore_try_acquire` either leaves the value at exactly
`v - n` and returns `true`, or leaves the value at `v` and returns
`false`; and whenever it returns `true` the resulting value is
nonnegative. -/
theorem c3_semaphore_try_acquire (v n : Int) :
    (halide_default_semaphore_try_acquire v n = (true, v - n) ∧ 0 ≤ v - n) ∨
      halide_default_semaphore_try_acquire v n = (false, v) := by
  unfold halide_default_semaphore_try_acquire
  by_cases h : v - n < 0
  · right
    simp [h]
  · left
    simp [h]
    omega

/-- **C10.** Both writers of `desired_threads_working` store a value in
`[1, MAX_THREADS]`: the lazy initialization in the enqueue protocol and
`halide_set_num_threads`, which also returns the previous value and
substitutes the environment-derived default when given `0`. -/
theorem c10_desired_threads_clamped (cur env_default n : Int) :
    1 ≤ enqueue_init_desired_threads cur env_default ∧
    enqueue_init_desired_threads cur env_default ≤ MAX_THREADS ∧
    (halide_set_num_threads cur env_default n).1 = cur ∧
    1 ≤ (halide_set_num_threads cur env_default n).2 ∧
    (halide_set_num_threads cur env_default n).2 ≤ MAX_THREADS ∧
    (n = 0 →
      (halide_set_num_threads cur env_default n).2 = clamp_num_threads env_default) := by
  unfold enqueue_init_desired_threads halide_set_num_threads clamp_num_threads MAX_THREADS
  refine ⟨?_, ?_, rfl, ?_, ?_, ?_⟩ <;> split_ifs <;> simp_all <;> omega

/-- Witness for C10 at a concrete input (`n = 0` substitutes the
environment default). -/
theorem c10_desired_threads_clamped_witness :
    (halide_set_num_threads 5 8 0).2 = clamp_num_threads 8 :=
  (c10_desired_threads_clamped 5 8 0).2.2.2.2.2 rfl

/-! ### Task descriptors and Jobs (source lines 7-42)

`halide_parallel_task_t` is the task-descriptor wire structure; the
opaque function and closure pointers are irrelevant to the claims proved
here and are omitted.  Semaphore preconditions are pairs
`(semaphore id, count)`; the semaphores themselves live in a `SemState`,
a table of current values indexed by id. -/

/-- The semaphore table: value of semaphore `i` is `st.getD i 0`. -/
abbrev SemState := List Int

structure halide_parallel_task_t where
  min : Int
  extent : Int
  may_block : Bool
  serial : Bool
  min_threads : Int
  semaphores : List (Nat × Int)
deriving DecidableEq

instance : Inhabited halide_parallel_task_t := ⟨⟨0, 0, false, false, 0, []⟩⟩

/-- Source: `struct work` (lines 7-21).  `parent` is the group token
(compared only for identity in the source, so modelled as a `Nat` id);
the linked-list pointer `next_job` becomes list structure, and the
opaque `task_fn`/`user_context` pointers are omitted. -/
structure work where
  task : halide_parallel_task_t
  parent : Nat
  active_workers : Int
  exit_status : Int
  next_semaphore : Nat
  owner_is_sleeping : Bool
deriving DecidableEq

/-- `halide_default_semaphore_try_acquire` applied to the semaphore with
id `id` inside the table `st`. -/
def tryAcquireAt (st : SemState) (id : Nat) (n : Int) : Bool × SemState :=
  match halide_default_semaphore_try_acquire (st.getD id 0) n with
  | (true, v2) => (true, st.set id v2)
  | (false, _) => (false, st)

/-- The `for (; next_semaphore < task.num_semaphores; next_semaphore++)`
loop of `work::make_runnable` (lines 23-37), recursing over the not yet
acquired suffix of the precondition list while tracking the value of the
`next_semaphore` field.  Returns (success, semaphore table,
final `next_semaphore`). -/
def make_runnable_loop : SemState → List (Nat × Int) → Nat → Bool × SemState × Nat
  | st, [], _ => (true, st, 0)
  | st, p :: rest, idx =>
    match tryAcquireAt st p.1 p.2 with
    | (false, st2) => (false, st2, idx)
    | (true, st2) => make_runnable_loop st2 rest (idx + 1)

/-- Source: `work::make_runnable` (lines 23-37). -/
def work.make_runnable (st : SemState) (j : work) : Bool × SemState × work :=
  let r := make_runnable_loop st (j.task.semaphores.drop j.next_semaphore) j.next_semaphore
  (r.1, r.2.1, { j with next_semaphore := r.2.2 })

/-- Unconditionally acquire every precondition in the list: each step
decrements the named semaphore by the named count.  Used to state that
partial acquisitions are kept (never released) by `make_runnable`. -/
def acquire_all (st : SemState) (pres : List (Nat × Int)) : SemState :=
  pres.foldl (fun s p => s.set p.1 (s.getD p.1 0 - p.2)) st

theorem tryAcquireAt_pos (st : SemState) (id : Nat) (n : Int)
    (h : ¬st.getD id 0 - n < 0) :
    tryAcquireAt st id n = (true, st.set id (st.getD id 0 - n)) := by
  unfold tryAcquireAt halide_default_semaphore_try_acquire
  simp only [if_neg h]

theorem tryAcquireAt_neg (st : SemState) (id : Nat) (n : Int)
    (h : st.getD id 0 - n < 0) :
    tryAcquireAt st id n = (false, st) := by
  unfold tryAcquireAt halide_default_semaphore_try_acquire
  simp only [if_pos h]

theorem make_runnable_loop_spec (pres : List (Nat × Int)) :
    ∀ (st : SemState) (idx : Nat),
      ((make_runnable_loop st pres idx).1 = true →
        (make_runnable_loop st pres idx).2.2 = 0 ∧
        (make_runnable_loop st pres idx).2.1 = acquire_all st pres) ∧
      ((make_runnable_loop st pres idx).1 = false →
        ∃ k, k < pres.length ∧
          (make_runnable_loop st pres idx).2.2 = idx + k ∧
          (make_runnable_loop st pres idx).2.1 = acquire_all st (pres.take k) ∧
          (tryAcquireAt (acquire_all st (pres.take k)) (pres.getD k (0, 0)).1
              (pres.getD k (0, 0)).2).1 = false) := by
  induction pres with
  | nil =>
    intro st idx
    constructor
    · intro _
      exact ⟨rfl, rfl⟩
    · intro h
      simp [make_runnable_loop] at h
  | cons p rest ih =>
    intro st idx
    have hunfold0 : make_runnable_loop st (p :: rest) idx
        = match tryAcquireAt st p.1 p.2 with
          | (false, st2) => (false, st2, idx)
          | (true, st2) => make_runnable_loop st2 rest (idx + 1) := rfl
    by_cases hneg : st.getD p.1 0 - p.2 < 0
    · -- the head precondition fails to acquire
      have hunfold : make_runnable_loop st (p :: rest) idx = (false, st, idx) := by
        rw [hunfold0, tryAcquireAt_neg st p.1 p.2 hneg]
      constructor
      · intro hok
        rw [hunfold] at hok
        simp at hok
      · intro _
        refine ⟨0, by simp, by simp [hunfold], by simp [hunfold, acquire_all], ?_⟩
        show (tryAcquireAt st p.1 p.2).1 = false
        rw [tryAcquireAt_neg st p.1 p.2 hneg]
    · -- the head precondition is acquired
      have hunfold : make_runnable_loop st (p :: rest) idx
          = make_runnable_loop (st.set p.1 (st.getD p.1 0 - p.2)) rest (idx + 1) := by
        rw [hunfold0, tryAcquireAt_pos st p.1 p.2 hneg]
      have hall : acquire_all st (p :: rest)
          = acquire_all (st.set p.1 (st.getD p.1 0 - p.2)) rest := rfl
      constructor
      · intro hok
        rw [hunfold] at hok ⊢
        rcases (ih _ (idx + 1)).1 hok with ⟨h0, hst⟩
        exact ⟨h0, by rw [hst, hall]⟩
      · intro hko
        rw [hunfold] at hko ⊢
        rcases (ih _ (idx + 1)).2 hko with ⟨k, hk, hidx, hst, hfail⟩
        refine ⟨k + 1, by simpa using Nat.succ_lt_succ hk, by omega, ?_, ?_⟩
        · rw [hst]
          rfl
        · have htake : (p :: rest).take (k + 1) = p :: rest.take k := rfl
          rw [htake]
          have hgd : ((p :: rest).getD (k + 1) (0, 0)) = rest.getD k (0, 0) := rfl
          have hall2 : acquire_all st (p :: rest.take k)
              = acquire_all (st.set p.1 (st.getD p.1 0 - p.2)) (rest.take k) := rfl
          rw [hgd, hall2]
          exact hfail

/-- **C4.** `make_runnable` tries to acquire the preconditions in order
starting at the current `next_semaphore` index: if some `try_acquire`
fails it returns `false` and releases none of the semaphores acquired so
far (the resulting table is exactly the input table with the acquired
prefix decremented); if all succeed it sets `next_semaphore` back to `0`
and returns `true`. -/
theorem c4_make_runnable (st : SemState) (j : work) (ok : Bool)
    (st2 : SemState) (j2 : work)
    (h : work.make_runnable st j = (ok, st2, j2)) :
    (ok = true →
      j2.next_semaphore = 0 ∧
      st2 = acquire_all st (j.task.semaphores.drop j.next_semaphore)) ∧
    (ok = false →
      ∃ k, k < (j.task.semaphores.drop j.next_semaphore).length ∧
        j2.next_semaphore = j.next_semaphore + k ∧
        st2 = acquire_all st ((j.task.semaphores.drop j.next_semaphore).take k) ∧
        (tryAcquireAt st2
            ((j.task.semaphores.drop j.next_semaphore).getD k (0, 0)).1
            ((j.task.semaphores.drop j.next_semaphore).getD k (0, 0)).2).1 = false) := by
  rcases hr : make_runnable_loop st (j.task.semaphores.drop j.next_semaphore)
      j.next_semaphore with ⟨b, stx, nx⟩
  unfold work.make_runnable at h
  rw [hr] at h
  simp only [Prod.mk.injEq] at h
  obtain ⟨hb, hstx, hj2⟩ := h
  have hspec := make_runnable_loop_spec (j.task.semaphores.drop j.next_semaphore) st
      j.next_semaphore
  rw [hr] at hspec
  simp only at hspec
  subst hb
  subst hstx
  constructor
  · intro hok
    rcases hspec.1 hok with ⟨h0, hacq⟩
    subst h0
    exact ⟨by rw [hj2.symm], hacq⟩
  · intro hko
    rcases hspec.2 hko with ⟨k, hk, hidx, hacq, hfail⟩
    subst hidx
    exact ⟨k, hk, by rw [hj2.symm], hacq, by rw [hacq.symm] at hfail; exact hfail⟩

/-- Witness for C4: a Job with two semaphore preconditions on a table
where both can be acquired; `make_runnable` succeeds and resets
`next_semaphore` to `0`. -/
theorem c4_make_runnable_witness :
    ∃ (st2 : SemState) (j2 : work),
      work.make_runnable [5, 7]
          ⟨⟨0, 1, false, false, 1, [(0, 1), (1, 1)]⟩, 0, 0, 0, 0, false⟩
        = (true, st2, j2) ∧ j2.next_semaphore = 0 := by
  refine ⟨[4, 6], ⟨⟨0, 1, false, false, 1, [(0, 1), (1, 1)]⟩, 0, 0, 0, 0, false⟩,
    by decide, ?_⟩
  exact ((c4_make_runnable [5, 7]
      ⟨⟨0, 1, false, false, 1, [(0, 1), (1, 1)]⟩, 0, 0, 0, 0, false⟩ true [4, 6]
      ⟨⟨0, 1, false, false, 1, [(0, 1), (1, 1)]⟩, 0, 0, 0, 0, false⟩
      (by decide)).1 rfl).1

/-! ### The dispatch-loop candidate scan (source lines 120-143)

`worker_thread_already_locked` traverses the job stack from the top.
For each Job it computes `threads_that_could_assist`, checks the
`min_threads` gate, the owner/sibling/stealable gate and the serial
gate, and finally calls `make_runnable` (which may consume semaphores
and advance `next_semaphore` even on rejected jobs).  The scan is
modelled as a function from the semaphore table and the job stack to
the selected job (if any), the resulting table and the resulting stack.
`owner` is the group token of the scanning owner thread (`none` for a
pool worker). -/

/-- Source: lines 128-133. -/
def threads_that_could_assist (workers_sleeping owners_sleeping : Int)
    (j : work) : Int :=
  1 + workers_sleeping +
    (if !j.task.may_block then owners_sleeping
     else if j.owner_is_sleeping then 1 else 0)

/-- Source: the `while (job)` scan of lines 121-143.  The condition
mirrors `may_try && enough_threads && job->make_runnable()`. -/
def find_candidate (workers_sleeping owners_sleeping : Int)
    (owner : Option Nat) :
    SemState → List work → Option work × SemState × List work
  | st, [] => (none, st, [])
  | st, j :: rest =>
    if (j.task.min_threads ≤ threads_that_could_assist workers_sleeping owners_sleeping j) ∧
        (owner = none ∨ owner = some j.parent ∨ j.task.may_block = false) ∧
        (j.task.serial = false ∨ j.active_workers = 0) then
      match work.make_runnable st j with
      | (true, st2, j2) => (some j2, st2, j2 :: rest)
      | (false, st2, j2) =>
        let r := find_candidate workers_sleeping owners_sleeping owner st2 rest
        (r.1, r.2.1, j2 :: r.2.2)
    else
      let r := find_candidate workers_sleeping owners_sleeping owner st rest
      (r.1, r.2.1, j :: r.2.2)

theorem make_runnable_preserves_fields (st : SemState) (j : work) :
    ((work.make_runnable st j).2.2).task = j.task ∧
    ((work.make_runnable st j).2.2).parent = j.parent ∧
    ((work.make_runnable st j).2.2).active_workers = j.active_workers ∧
    ((work.make_runnable st j).2.2).owner_is_sleeping = j.owner_is_sleeping := by
  unfold work.make_runnable
  exact ⟨rfl, rfl, rfl, rfl⟩

/-- **C5.** A Job is never selected for execution by the dispatch scan
unless its `min_threads` is at most `threads_that_could_assist`
(`1 + workers_sleeping`, plus `owners_sleeping` when the Job is
non-blocking, else plus `1` when the Job's own owner is asleep); a
waiting owner never obtains a blocking Job from another sibling group;
and a serial Job is never selected while it already has an active
worker. -/
theorem c5_candidate_gates (workers_sleeping owners_sleeping : Int)
    (owner : Option Nat) (st : SemState) (jobs : List work)
    (j : work) (st2 : SemState) (jobs2 : List work)
    (h : find_candidate workers_sleeping owners_sleeping owner st jobs
        = (some j, st2, jobs2)) :
    j.task.min_threads ≤ threads_that_could_assist workers_sleeping owners_sleeping j ∧
    (∀ p, owner = some p → j.task.may_block = true → j.parent = p) ∧
    (j.task.serial = true → j.active_workers = 0) := by
  induction jobs generalizing st st2 jobs2 with
  | nil =>
    simp [find_candidate] at h
  | cons jh rest ih =>
    by_cases hgate :
        (jh.task.min_threads ≤
            threads_that_could_assist workers_sleeping owners_sleeping jh) ∧
        (owner = none ∨ owner = some jh.parent ∨ jh.task.may_block = false) ∧
        (jh.task.serial = false ∨ jh.active_workers = 0)
    · rcases hmr : work.make_runnable st jh with ⟨ok, stx, jx⟩
      have hfields := make_runnable_preserves_fields st jh
      rw [hmr] at hfields
      simp only at hfields
      obtain ⟨hft, hfp, hfa, hfo⟩ := hfields
      cases ok with
      | true =>
        have hstep : find_candidate workers_sleeping owners_sleeping owner st (jh :: rest)
            = (some jx, stx, jx :: rest) := by
          unfold find_candidate
          rw [if_pos hgate, hmr]
        rw [hstep] at h
        simp only [Prod.mk.injEq, Option.some.injEq] at h
        obtain ⟨hj, -, -⟩ := h
        rw [← hj]
        have hassist : threads_that_could_assist workers_sleeping owners_sleeping jx
            = threads_that_could_assist workers_sleeping owners_sleeping jh := by
          unfold threads_that_could_assist
          rw [hft, hfo]
        refine ⟨by rw [hassist, hft]; exact hgate.1, ?_, ?_⟩
        · intro p hp hmb
          rcases hgate.2.1 with h0 | h0 | h0
          · rw [h0] at hp
            exact absurd hp (by simp)
          · rw [hfp]
            rw [h0] at hp
            simpa using hp
          · rw [hft] at hmb
            rw [h0] at hmb
            simp at hmb
        · intro hserial
          rcases hgate.2.2 with h0 | h0
          · rw [hft] at hserial
            rw [h0] at hserial
            simp at hserial
          · rw [hfa]
            exact h0
      | false =>
        have hstep : find_candidate workers_sleeping owners_sleeping owner st (jh :: rest)
            = ((find_candidate workers_sleeping owners_sleeping owner stx rest).1,
               (find_candidate workers_sleeping owners_sleeping owner stx rest).2.1,
               jx :: (find_candidate workers_sleeping owners_sleeping owner stx rest).2.2) := by
          simp only [find_candidate]
          rw [if_pos hgate, hmr]
        rw [hstep] at h
        rcases hr : find_candidate workers_sleeping owners_sleeping owner stx rest
          with ⟨a, b, c⟩
        rw [hr] at h
        simp only [Prod.mk.injEq] at h
        obtain ⟨h1, h2, -⟩ := h
        rw [h1, h2] at hr
        exact ih stx st2 c hr
    · have hstep : find_candidate workers_sleeping owners_sleeping owner st (jh :: rest)
          = ((find_candidate workers_sleeping owners_sleeping owner st rest).1,
             (find_candidate workers_sleeping owners_sleeping owner st rest).2.1,
             jh :: (find_candidate workers_sleeping owners_sleeping owner st rest).2.2) := by
        simp only [find_candidate]
        rw [if_neg hgate]
      rw [hstep] at h
      rcases hr : find_candidate workers_sleeping owners_sleeping owner st rest
        with ⟨a, b, c⟩
      rw [hr] at h
      simp only [Prod.mk.injEq] at h
      obtain ⟨h1, h2, -⟩ := h
      rw [h1, h2] at hr
      exact ih st st2 c hr

/-- Witness for C5: a one-job stack whose job passes every gate; the
scan selects it and the gates hold for the selected job. -/
theorem c5_candidate_gates_witness :
    (⟨⟨0, 1, false, false, 1, []⟩, 0, 0, 0, 0, false⟩ : work).task.min_threads ≤
      threads_that_could_assist 0 0
        ⟨⟨0, 1, false, false, 1, []⟩, 0, 0, 0, 0, false⟩ :=
  (c5_candidate_gates 0 0 none []
    [⟨⟨0, 1, false, false, 1, []⟩, 0, 0, 0, 0, false⟩]
    ⟨⟨0, 1, false, false, 1, []⟩, 0, 0, 0, 0, false⟩ []
    [⟨⟨0, 1, false, false, 1, []⟩, 0, 0, 0, 0, false⟩] (by decide)).1

/-! ### Executing a parallel Job (source lines 209-236 and 376-404)

With a single thread (the submitting owner running the dispatch loop),
one parallel (non-serial) Job with no semaphores is drained by repeated
parallel claims: each claim copies the descriptor, advances `min` by one
and decrements `extent` by one on the queue copy, then executes one
iteration at the pre-increment `min`; a non-zero result is written into
`exit_status` (lines 233-236).  `dispatch_par f m e es` performs `e`
such claims starting at `min = m` with current exit status `es`,
returning the list of dispatched indices and the final exit status. -/

/-- Source: lines 233-236, `if (result) job->exit_status = result;`. -/
def exit_status_update (es result : Int) : Int :=
  if result ≠ 0 then result else es

/-- The last non-zero element of a status list (or `0`): the value the
repeated application of `exit_status_update` leaves behind. -/
def last_nonzero (l : List Int) : Int :=
  l.foldl exit_status_update 0

/-- The claim-and-execute loop on one parallel Job (source lines
209-231), run sequentially until `extent` reaches `0`. -/
def dispatch_par (f : Int → Int) : Int → Nat → Int → List Int × Int
  | _, 0, es => ([], es)
  | m, e + 1, es =>
    let result := f m
    let r := dispatch_par f (m + 1) e (exit_status_update es result)
    (m :: r.1, r.2)

/-- The observable outcome of `halide_default_do_par_for`: the returned
status, the number of Jobs enqueued on the work queue, and the list of
iteration indices dispatched. -/
structure ParForResult where
  status : Int
  jobs_enqueued : Nat
  dispatched : List Int
deriving DecidableEq

/-- Source: `halide_default_do_par_for` (lines 376-404).  If
`size <= 0` it returns `0` before touching the work queue; otherwise it
enqueues one Job with `exit_status = 0` and the owner drains it through
the dispatch loop, returning the Job's final `exit_status`. -/
def halide_default_do_par_for (f : Int → Int) (min size : Int) : ParForResult :=
  if size ≤ 0 then ⟨0, 0, []⟩
  else
    let r := dispatch_par f min size.toNat 0
    ⟨r.2, 1, r.1⟩

theorem dispatch_par_count (f : Int → Int) (x : Int) :
    ∀ (e : Nat) (m : Int) (es : Int),
      ((dispatch_par f m e es).1).count x
        = if m ≤ x ∧ x < m + (e : Int) then 1 else 0 := by
  intro e
  induction e with
  | zero =>
    intro m es
    have hc : ¬(m ≤ x ∧ x < m) := by omega
    simp [dispatch_par, hc]
  | succ n ih =>
    intro m es
    show (m :: (dispatch_par f (m + 1) n (exit_status_update es (f m))).1).count x = _
    by_cases hx : x = m
    · subst hx
      rw [List.count_cons_self, ih (x + 1) (exit_status_update es (f x))]
      rw [if_neg (by omega : ¬(x + 1 ≤ x ∧ x < x + 1 + (n : Int)))]
      rw [if_pos (by push_cast; omega : x ≤ x ∧ x < x + ((n + 1 : Nat) : Int))]
    · rw [List.count_cons_of_ne hx, ih (m + 1) (exit_status_update es (f m))]
      by_cases hin : m + 1 ≤ x ∧ x < m + 1 + (n : Int)
      · rw [if_pos hin, if_pos (by push_cast at hin ⊢; omega)]
      · rw [if_neg hin, if_neg (by push_cast at hin ⊢; omega)]

theorem dispatch_par_status (f : Int → Int) :
    ∀ (e : Nat) (m : Int) (es : Int),
      (dispatch_par f m e es).2
        = List.foldl exit_status_update es (((dispatch_par f m e es).1).map f) := by
  intro e
  induction e with
  | zero =>
    intro m es
    simp [dispatch_par]
  | succ n ih =>
    intro m es
    simp only [dispatch_par, List.map_cons, List.foldl_cons]
    exact ih (m + 1) (exit_status_update es (f m))

theorem dispatch_par_length (f : Int → Int) :
    ∀ (e : Nat) (m : Int) (es : Int), ((dispatch_par f m e es).1).length = e := by
  intro e
  induction e with
  | zero =>
    intro m es
    simp [dispatch_par]
  | succ n ih =>
    intro m es
    simp only [dispatch_par, List.length_cons, ih (m + 1)]

/-- **C6.** For every `min` and every `size > 0`, a completed
`par_for(min, size)` dispatches each iteration index in the half-open
range `[min, min + size)` exactly once, and the call returns the Job's
final `exit_status` (the last non-zero iteration result, or `0`). -/
theorem c6_par_for_each_index_once (f : Int → Int) (min size : Int)
    (h : 0 < size) :
    (∀ x : Int,
      ((halide_default_do_par_for f min size).dispatched).count x
        = if min ≤ x ∧ x < min + size then 1 else 0) ∧
    (halide_default_do_par_for f min size).status
      = last_nonzero (((halide_default_do_par_for f min size).dispatched).map f) := by
  have hnot : ¬size ≤ 0 := by omega
  have hsz : ((size.toNat : Nat) : Int) = size := Int.toNat_of_nonneg (by omega)
  constructor
  · intro x
    simp only [halide_default_do_par_for, if_neg hnot]
    rw [dispatch_par_count f x size.toNat min 0, hsz]
  · simp only [halide_default_do_par_for, if_neg hnot]
    exact dispatch_par_status f size.toNat min 0

/-- Witness for C6 at `min = 5`, `size = 2` with an all-zero body:
index `5` is dispatched exactly once. -/
theorem c6_par_for_each_index_once_witness :
    ((halide_default_do_par_for (fun _ => 0) 5 2).dispatched).count 5 = 1 := by
  have h := (c6_par_for_each_index_once (fun _ => 0) 5 2 (by norm_num)).1 5
  rw [h]
  norm_num

/-- **C8.** For every `min`, closure and `size ≤ 0`, `par_for` returns
`0` immediately and leaves the work queue untouched: no Job is
enqueued and no iteration is dispatched. -/
theorem c8_par_for_size_nonpositive (f : Int → Int) (min size : Int)
    (h : size ≤ 0) :
    halide_default_do_par_for f min size = ⟨0, 0, []⟩ := by
  simp [halide_default_do_par_for, h]

/-- Witness for C8 at `size = 0`. -/
theorem c8_par_for_size_nonpositive_witness :
    halide_default_do_par_for (fun _ => 7) 3 0 = ⟨0, 0, []⟩ :=
  c8_par_for_size_nonpositive (fun _ => 7) 3 0 (by norm_num)

/-! ### `halide_default_do_parallel_tasks`: execution and status
aggregation (source lines 406-443)

Each submitted task is one Job; the sequential owner drains the Jobs in
submission order (each non-serial, semaphore-free Job is drained through
the same claim loop as `par_for`, using `task.fn` with extent one).  The
aggregation loop of lines 432-440 then keeps the last non-zero
`exit_status` across the group. -/

structure loop_task where
  min : Int
  extent : Nat
  body : Int → Int

/-- The sequence of statuses returned by the iterations of one Job. -/
def job_statuses (t : loop_task) : List Int :=
  ((dispatch_par t.body t.min t.extent 0).1).map t.body

/-- The final `exit_status` of one drained Job (initialized to `0` at
line 419 and updated only at lines 233-236). -/
def job_exit (t : loop_task) : Int :=
  (dispatch_par t.body t.min t.extent 0).2

/-- Source: lines 431-440.  `exit_status` starts at `0`; for each Job
in submission order, a non-zero Job `exit_status` replaces it. -/
def parallel_tasks_exit (ts : List loop_task) : Int :=
  ts.foldl (fun acc t => exit_status_update acc (job_exit t)) 0

theorem exit_status_update_zero (es : Int) : exit_status_update es 0 = es := by
  simp [exit_status_update]

theorem exit_status_update_zero_left (r : Int) : exit_status_update 0 r = r := by
  unfold exit_status_update
  split_ifs with h
  · rfl
  · omega

theorem exit_status_update_assoc (acc a z : Int) :
    exit_status_update (exit_status_update acc a) z
      = exit_status_update acc (exit_status_update a z) := by
  unfold exit_status_update
  split_ifs <;> omega

theorem foldl_exit_collapse :
    ∀ (l : List Int) (acc : Int),
      List.foldl exit_status_update acc l
        = exit_status_update acc (last_nonzero l) := by
  intro l
  induction l with
  | nil =>
    intro acc
    simp [last_nonzero, exit_status_update_zero]
  | cons a l ih =>
    intro acc
    have hl : last_nonzero (a :: l) = exit_status_update a (last_nonzero l) := by
      unfold last_nonzero
      rw [List.foldl_cons, ih (exit_status_update 0 a), exit_status_update_zero_left]
      rfl
    rw [List.foldl_cons, ih (exit_status_update acc a), hl,
      exit_status_update_assoc]

theorem last_nonzero_append (l1 l2 : List Int) :
    last_nonzero (l1 ++ l2)
      = exit_status_update (last_nonzero l1) (last_nonzero l2) := by
  unfold last_nonzero
  rw [List.foldl_append]
  exact foldl_exit_collapse l2 _

theorem last_nonzero_eq_zero_iff :
    ∀ l : List Int, last_nonzero l = 0 ↔ ∀ r ∈ l, r = 0 := by
  intro l
  induction l with
  | nil =>
    simp [last_nonzero]
  | cons a l ih =>
    have hl : last_nonzero (a :: l) = exit_status_update a (last_nonzero l) := by
      unfold last_nonzero
      rw [List.foldl_cons, foldl_exit_collapse l (exit_status_update 0 a),
        exit_status_update_zero_left]
      rfl
    rw [hl]
    unfold exit_status_update
    split_ifs with hz
    · constructor
      · intro h0
        exact absurd h0 hz
      · intro hall
        exact absurd (ih.mpr fun r hr => hall r (List.mem_cons_of_mem a hr)) hz
    · push_neg at hz
      constructor
      · intro ha r hr
        rcases List.mem_cons.mp hr with h0 | h0
        · rw [h0]
          exact ha
        · exact ih.mp hz r h0
      · intro hall
        exact hall a (List.mem_cons_self a l)

theorem last_nonzero_join :
    ∀ ls : List (List Int),
      last_nonzero ls.flatten
        = List.foldl (fun acc l => exit_status_update acc (last_nonzero l)) 0 ls := by
  intro ls
  induction ls with
  | nil =>
    simp [last_nonzero]
  | cons L ls ih =>
    have hgen : ∀ acc : Int,
        List.foldl (fun acc l => exit_status_update acc (last_nonzero l)) acc ls
          = exit_status_update acc
              (List.foldl (fun acc l => exit_status_update acc (last_nonzero l)) 0 ls) := by
      intro acc
      rw [← List.foldl_map last_nonzero exit_status_update ls acc,
        ← List.foldl_map last_nonzero exit_status_update ls 0]
      exact foldl_exit_collapse (ls.map last_nonzero) acc
    rw [List.flatten_cons, last_nonzero_append, ih, List.foldl_cons,
      exit_status_update_zero_left, hgen (last_nonzero L)]

/-- **C9.** A Job's `exit_status` starts at `0` and is only ever
written with a non-zero iteration result; consequently once some
iteration of the Job has failed, later iterations that return `0`
never reset the `exit_status` back to `0`. -/
theorem c9_exit_status_never_reset :
    (∀ t : loop_task,
      job_exit t = List.foldl exit_status_update 0 (job_statuses t)) ∧
    (∀ es : Int, exit_status_update es 0 = es) ∧
    (∀ es r : Int,
      exit_status_update es r = es ∨ (exit_status_update es r = r ∧ r ≠ 0)) ∧
    (∀ (es : Int) (l : List Int), es ≠ 0 →
      List.foldl exit_status_update es l ≠ 0) := by
  refine ⟨?_, exit_status_update_zero, ?_, ?_⟩
  · intro t
    exact dispatch_par_status t.body t.extent t.min 0
  · intro es r
    unfold exit_status_update
    split_ifs with h
    · right
      exact ⟨rfl, h⟩
    · left
      rfl
  · intro es l hes
    rw [foldl_exit_collapse l es]
    unfold exit_status_update
    split_ifs with h
    · exact h
    · exact hes

/-- Witness for C9: starting from the failed status `-7`, two further
successful iterations leave the exit status non-zero. -/
theorem c9_exit_status_never_reset_witness :
    List.foldl exit_status_update (-7) [0, 0] ≠ 0 :=
  c9_exit_status_never_reset.2.2.2 (-7) [0, 0] (by norm_num)

/-- **C7.** For every `parallel_tasks` call that submits at least one
Job, the return value is `0` iff every executed iteration returned `0`;
a non-zero iteration status is recorded without cancelling the
remaining iterations (every iteration of every Job executes), and the
value returned is the last non-zero status observed. -/
theorem c7_parallel_tasks_status (ts : List loop_task) (h : ts ≠ []) :
    (parallel_tasks_exit ts = 0 ↔ ∀ t ∈ ts, ∀ r ∈ job_statuses t, r = 0) ∧
    parallel_tasks_exit ts = last_nonzero ((ts.map job_statuses).flatten) ∧
    ((ts.map job_statuses).flatten).length = (ts.map (fun t => t.extent)).sum := by
  have hexit : ∀ t : loop_task, job_exit t = last_nonzero (job_statuses t) := by
    intro t
    exact dispatch_par_status t.body t.extent t.min 0
  have hconj2 : parallel_tasks_exit ts = last_nonzero ((ts.map job_statuses).flatten) := by
    unfold parallel_tasks_exit
    rw [last_nonzero_join]
    rw [List.foldl_map job_statuses
      (fun acc l => exit_status_update acc (last_nonzero l)) ts 0]
    congr 1
    funext acc t
    rw [hexit t]
  refine ⟨?_, hconj2, ?_⟩
  · rw [hconj2, last_nonzero_eq_zero_iff]
    constructor
    · intro hall t ht r hr
      refine hall r (List.mem_flatten.mpr ⟨job_statuses t, ?_, hr⟩)
      exact List.mem_map.mpr ⟨t, ht, rfl⟩
    · intro hall r hr
      rcases List.mem_flatten.mp hr with ⟨l, hl, hrl⟩
      rcases List.mem_map.mp hl with ⟨t, ht, rfl⟩
      exact hall t ht r hrl
  · have hlen : ∀ t : loop_task, (job_statuses t).length = t.extent := by
      intro t
      unfold job_statuses
      rw [List.length_map]
      exact dispatch_par_length t.body t.extent t.min 0
    rw [List.length_flatten, List.map_map]
    have hcomp : (List.length ∘ job_statuses) = fun t : loop_task => t.extent :=
      funext fun t => hlen t
    rw [hcomp]

/-- Witness for C7: one task over a single iteration whose body returns
`0`; the aggregated exit status is `0`. -/
theorem c7_parallel_tasks_status_witness :
    parallel_tasks_exit [⟨0, 1, fun _ => 0⟩] = 0 := by
  apply (c7_parallel_tasks_status [⟨0, 1, fun _ => 0⟩] (by simp)).1.mpr
  intro t ht r hr
  simp only [List.mem_singleton] at ht
  subst ht
  simp [job_statuses, dispatch_par] at hr
  exact hr

/-! ### The descriptor-copy loop of `halide_default_do_parallel_tasks`
(source lines 408-427)

The loop is
```
for (int i = 0; i < num_tasks; i++) \x7b
    if (tasks->extent <= 0) \x7b num_tasks--; continue; \x7d
    jobs[i].task = *tasks++;
    ...
\x7d
if (num_tasks == 0) return 0;
```
Note that a skipped task does not advance the `tasks` pointer.  The
model tracks the loop index `i`, the (mutated) bound `num_tasks`, the
pointer offset `t` into the task array, and the list of
(slot, descriptor) pairs actually written into the `jobs` scratch
buffer.  The result is the final `num_tasks` (the count passed to
`enqueue_work_already_locked` unless it is `0`) and the written slots. -/

def skip_loop (tasks : List halide_parallel_task_t) (i num_tasks t : Nat)
    (written : List (Nat × halide_parallel_task_t)) :
    Nat × List (Nat × halide_parallel_task_t) :=
  if h : i < num_tasks then
    if (tasks.getD t default).extent ≤ 0 then
      skip_loop tasks (i + 1) (num_tasks - 1) t written
    else
      skip_loop tasks (i + 1) num_tasks (t + 1)
        (written ++ [(i, tasks.getD t default)])
  else
    (num_tasks, written)
termination_by num_tasks - i
decreasing_by all_goals omega

/-- Source: `halide_default_do_parallel_tasks` (lines 406-443), up to
the `num_tasks == 0` early return: the final `num_tasks` and the job
slots actually initialized. -/
def halide_default_do_parallel_tasks (tasks : List halide_parallel_task_t) :
    Nat × List (Nat × halide_parallel_task_t) :=
  skip_loop tasks 0 tasks.length 0 []

/-- **C1** fails on the code: with `tasks = [{extent = 0}, {extent = 5}]`
the copy loop never advances past the skipped first task, ends with
`num_tasks = 1` and writes no descriptor at all, so the call does not
return `0` early, enqueues one uninitialized Job, and drops the
`extent = 5` task instead of submitting it.  The same trace shows that
with two `extent = 0` tasks the call still computes `num_tasks = 1`
instead of returning `0` immediately. -/
theorem c1_skip_loop_miscounts :
    halide_default_do_parallel_tasks
        [⟨0, 0, false, false, 1, []⟩, ⟨0, 5, false, false, 1, []⟩] = (1, []) ∧
    halide_default_do_parallel_tasks
        [⟨0, 0, false, false, 1, []⟩, ⟨0, 0, false, false, 1, []⟩] = (1, []) := by
  constructor
  · show skip_loop [⟨0, 0, false, false, 1, []⟩, ⟨0, 5, false, false, 1, []⟩] 0
        (List.length [⟨0, 0, false, false, 1, []⟩, ⟨0, 5, false, false, 1, []⟩]) 0 []
      = (1, [])
    rw [skip_loop]
    norm_num [List.getD]
    rw [skip_loop]
    norm_num
  · show skip_loop [⟨0, 0, false, false, 1, []⟩, ⟨0, 0, false, false, 1, []⟩] 0
        (List.length [⟨0, 0, false, false, 1, []⟩, ⟨0, 0, false, false, 1, []⟩]) 0 []
      = (1, [])
    rw [skip_loop]
    norm_num [List.getD]
    rw [skip_loop]
    norm_num

/-! ### The worker-spawn loop of `enqueue_work_already_locked`
(source lines 279-315)

`min_threads` is aggregated over the batch (lines 283-305): the sum of
`min_threads` over the Jobs with `may_block == true`.  The spawn loop
(lines 307-315) then runs
`while (threads_created < desired_threads_working - 1 || threads_created < min_threads - 1)`,
each iteration writing `threads[threads_created]` and incrementing
`threads_created`.  The model returns the list of array indices written
and the final `threads_created`. -/

/-- Source: the `min_threads` aggregation of lines 283-305. -/
def gather_min_threads (jobs : List halide_parallel_task_t) : Int :=
  jobs.foldl (fun acc t => if t.may_block then acc + t.min_threads else acc) 0

/-- Source: the spawn loop of lines 307-315. -/
def spawn_loop (desired_threads_working min_threads threads_created : Int) :
    List Int × Int :=
  if h : threads_created < desired_threads_working - 1 ∨
      threads_created < min_threads - 1 then
    let r := spawn_loop desired_threads_working min_threads (threads_created + 1)
    (threads_created :: r.1, r.2)
  else
    ([], threads_created)
termination_by
  (max (desired_threads_working - 1) (min_threads - 1) - threads_created).toNat
decreasing_by
  have h1 := le_max_left (desired_threads_working - 1) (min_threads - 1)
  have h2 := le_max_right (desired_threads_working - 1) (min_threads - 1)
  omega

theorem spawn_loop_eq :
    ∀ (k : Nat) (d m tc : Int), (max (d - 1) (m - 1) - tc).toNat = k →
      spawn_loop d m tc = ((List.range k).map (fun i : Nat => tc + (i : Int)), tc + (k : Int)) := by
  intro k
  induction k with
  | zero =>
    intro d m tc hk
    have h1 := le_max_left (d - 1) (m - 1)
    have h2 := le_max_right (d - 1) (m - 1)
    rw [spawn_loop, dif_neg (by omega)]
    simp
  | succ n ih =>
    intro d m tc hk
    have h1 := le_max_left (d - 1) (m - 1)
    have h2 := le_max_right (d - 1) (m - 1)
    have h3 := max_choice (d - 1) (m - 1)
    rw [spawn_loop, dif_pos (by rcases h3 with h3 | h3 <;> omega)]
    rw [ih d m (tc + 1) (by omega)]
    simp only [Prod.mk.injEq]
    constructor
    · rw [List.range_succ_eq_map]
      simp only [List.map_cons, List.map_map]
      have hfun : ((fun i : Nat => tc + (i : Int)) ∘ Nat.succ)
          = fun i : Nat => tc + 1 + (i : Int) := by
        funext i
        simp only [Function.comp]
        push_cast
        ring
      rw [hfun]
      norm_num
    · push_cast
      ring

/-- **C2** fails on the code: the spawn loop has no `MAX_THREADS` bound.
Submitting a single blocking Job with `min_threads = 258` on a fresh
queue (`threads_created = 0`, `desired_threads_working = 1`) makes the
loop create `257` threads and write `threads[256]`, one past the end of
the 256-entry `threads` array (`MAX_THREADS = 256`). -/
theorem c2_spawn_loop_unbounded :
    (spawn_loop 1 (gather_min_threads [⟨0, 1, true, false, 258, []⟩]) 0).2 = 257 ∧
    (256 : Int) ∈ (spawn_loop 1 (gather_min_threads [⟨0, 1, true, false, 258, []⟩]) 0).1 ∧
    MAX_THREADS = 256 := by
  have hg : gather_min_threads [⟨0, 1, true, false, 258, []⟩] = 258 := by
    norm_num [gather_min_threads]
  rw [hg]
  have h := spawn_loop_eq 257 1 258 0 (by decide)
  rw [h]
  refine ⟨by norm_num, ?_, rfl⟩
  simp only [List.mem_map, List.mem_range]
  exact ⟨256, by norm_num, by norm_num⟩

end ThreadPool
